import Mathlib

/-!
Verification development for the EPUB-Translator repository.

The development shallowly embeds the text-segmentation-and-reinsertion
engine of src/buffer.py (class TextBuffer), the document visitor of
src/utilities.py (translate_visible_text and the book-level helpers), and
the batched translator front end of src/translator.py.

The BeautifulSoup document tree (an external collaborator of the program)
is modelled as a flat store: a map from node ids to node contents together
with a map from element ids to their ordered lists of child ids.  The tree
operations used by the source (parent lookup, extract, clear, append,
insert_before) are defined on that store.  Python strings are Lean strings;
the regular expression [.!?;:]\s*$ and str.strip are modelled directly on
character lists so that every definition evaluates by kernel reduction.
-/

/-! ## Python string helpers -/

/-- Characters treated as whitespace by str.strip and the regex class \s
(space, tab, carriage return, line feed). -/
def pyWhitespace (c : Char) : Bool :=
  c = ' ' || c = '\t' || c = '\r' || c = '\n'

/-- Drop trailing whitespace from a character list. -/
def stripRightList (cs : List Char) : List Char :=
  ((cs.reverse).dropWhile pyWhitespace).reverse

/-- Drop leading and trailing whitespace, as Python str.strip(). -/
def stripList (cs : List Char) : List Char :=
  stripRightList (cs.dropWhile pyWhitespace)

/-- Python str.strip() on a string. -/
def pyStrip (s : String) : String :=
  ⟨stripList s.data⟩

/-- Python "".join over a list of strings: plain concatenation in order
with no added separator. -/
def joinTexts : List String → String
  | [] => ""
  | s :: rest => s ++ joinTexts rest

/-- The sentence delimiters of the regex [.!?;:]. -/
def isDelim (c : Char) : Bool :=
  c = '.' || c = '!' || c = '?' || c = ';' || c = ':'

/-- Reading a reversed character list: skip the whitespace that was at the
end of the original list, then test for a delimiter.  This is exactly when
re.search matches the pattern [.!?;:]\s*$ on the original list. -/
def delimThenWs : List Char → Bool
  | [] => false
  | c :: rest => if pyWhitespace c then delimThenWs rest else isDelim c

/-- TextBuffer._ends_with_delimiter from src/buffer.py:
bool(re.search(r"[.!?;:]\s*$", text.strip())). -/
def endsWithDelimiter (text : String) : Bool :=
  delimThenWs (pyStrip text).data.reverse

/-! ## Document tree model -/

/-- A node id: the identity of one BeautifulSoup node object. -/
abbrev NodeId := Nat

/-- Contents of one node: an element (bs4 Tag) with a tag name and
attributes, a bare text leaf (bs4 NavigableString), or a comment
(bs4 Comment). -/
inductive NodeKind where
  | elem (name : String) (attrs : List (String × String))
  | txt (s : String)
  | comment (s : String)
deriving DecidableEq

/-- The document store: node contents keyed by id, ordered children lists
keyed by element id, and the next unused id for allocation.  The
BeautifulSoup root object is itself a node (its tag name is
"[document]"). -/
structure DTree where
  kind : List (NodeId × NodeKind)
  children : List (NodeId × List NodeId)
  fresh : NodeId
deriving DecidableEq

/-- Look up the contents of a node. -/
def getKind (t : DTree) (n : NodeId) : Option NodeKind :=
  (t.kind.find? (fun e => e.1 == n)).map (·.2)

/-- Ordered children of an element (empty if the id has no entry). -/
def childrenOf (t : DTree) (p : NodeId) : List NodeId :=
  match t.children.find? (fun e => e.1 == p) with
  | some e => e.2
  | none => []

/-- The parent of a node: the element whose children list contains it
(bs4 node.parent). -/
def parentOf (t : DTree) (n : NodeId) : Option NodeId :=
  (t.children.find? (fun e => e.2.contains n)).map (·.1)

/-- Tag name of the parent of a node, when the parent exists and is an
element. -/
def parentNameOf (t : DTree) (n : NodeId) : Option String :=
  match parentOf t n with
  | none => none
  | some p =>
    match getKind t p with
    | some (.elem nm _) => some nm
    | _ => none

/-- Attributes of the parent of a node, when the parent exists and is an
element. -/
def parentAttrsOf (t : DTree) (n : NodeId) : List (String × String) :=
  match parentOf t n with
  | none => []
  | some p =>
    match getKind t p with
    | some (.elem _ a) => a
    | _ => []

/-- Python truthiness of a node object: a NavigableString or Comment is
truthy exactly when its text is non-empty (str truthiness), a Tag is
truthy exactly when it has children (len truthiness), and a missing
reference (None) is falsy. -/
def nodeTruthy (t : DTree) (n : NodeId) : Bool :=
  match getKind t n with
  | some (.txt s) => s != ""
  | some (.comment s) => s != ""
  | some (.elem _ _) => !(childrenOf t n).isEmpty
  | none => false

/-- TextBuffer._get_parent_name from src/buffer.py:
tag.parent.name if tag and tag.parent else None.  The guard "tag and
tag.parent" uses Python truthiness of the node object itself. -/
def get_parent_name (t : DTree) (n : NodeId) : Option String :=
  if nodeTruthy t n && (parentOf t n).isSome then parentNameOf t n
  else none

/-- bs4 PageElement.extract(): detach a node from the tree by removing its
id from every children list (in a well-formed tree it occurs in at most
one).  The detached subtree keeps its own entries but becomes
unreachable. -/
def extract (t : DTree) (n : NodeId) : DTree :=
  { t with children := t.children.map (fun e => (e.1, e.2.filter (fun c => c != n))) }

/-- bs4 Tag.clear(): remove all children of an element. -/
def clearChildren (t : DTree) (p : NodeId) : DTree :=
  { t with children := t.children.map (fun e => if e.1 == p then (e.1, []) else e) }

/-- bs4 Tag.append(child): add a child id at the end of the children list
of an element. -/
def appendChild (t : DTree) (p c : NodeId) : DTree :=
  { t with children := t.children.map (fun e => if e.1 == p then (e.1, e.2 ++ [c]) else e) }

/-- Insert newId immediately before the first occurrence of target in a
children list (no change if target does not occur). -/
def insertBeforeId (cs : List NodeId) (target newId : NodeId) : List NodeId :=
  match cs with
  | [] => []
  | c :: rest => if c == target then newId :: c :: rest else c :: insertBeforeId rest target newId

/-- bs4 PageElement.insert_before(new): insert a node as a sibling
immediately before the target, in whatever children list holds the
target. -/
def insertBefore (t : DTree) (target newId : NodeId) : DTree :=
  { t with children := t.children.map (fun e => (e.1, insertBeforeId e.2 target newId)) }

/-- Allocate a new node with the given contents; elements start with an
empty children list.  Returns the new store and the id of the new node. -/
def addNode (t : DTree) (k : NodeKind) : DTree × NodeId :=
  (⟨t.kind ++ [(t.fresh, k)],
    (match k with
     | .elem _ _ => t.children ++ [(t.fresh, [])]
     | _ => t.children),
    t.fresh + 1⟩, t.fresh)

/-! ## TextBuffer (src/buffer.py) -/

/-- One segment handed to TextBuffer.add: the node reference and the raw
text string str(tag) that came with it. -/
structure Seg where
  node : NodeId
  text : String
deriving DecidableEq

/-- The blocking tag set of TextBuffer.__init__. -/
def blockingTags : List String := ["a", "h1", "h2", "title"]

/-- The invalid tag set of TextBuffer.__init__. -/
def invalidTags : List String := ["script", "style", "meta"]

/-- Python membership of an optional tag name in a set of names: None is
in no set. -/
def optIn (o : Option String) (l : List String) : Bool :=
  match o with
  | some s => l.contains s
  | none => false

/-- Mutable state of a TextBuffer: the configured batch size, the Current
Phrase, and the Pending Queue of committed phrases.  The injected
translation function and the debug flag are passed to the operations. -/
structure TextBuffer where
  batchSize : Nat
  currentPhrase : List Seg
  phrases : List (List Seg)
deriving DecidableEq

/-- TextBuffer.__init__ with batch_size defaulting to 1. -/
def mkBuffer (batchSize : Nat := 1) : TextBuffer :=
  ⟨batchSize, [], []⟩

/-- TextBuffer._commit_phrase: append the Current Phrase to the Pending
Queue when it is non-empty and start a fresh Current Phrase. -/
def commitPhrase (b : TextBuffer) : TextBuffer :=
  if b.currentPhrase.isEmpty then b
  else { b with phrases := b.phrases ++ [b.currentPhrase], currentPhrase := [] }

/-- The boundary decision of TextBuffer.add, evaluated against the last
segment of the Current Phrase and the candidate segment. -/
def forceBoundary (t : DTree) (lastSeg seg : Seg) : Bool :=
  let tagName := get_parent_name t seg.node
  let lastTagName := get_parent_name t lastSeg.node
  let endsWithDelim := endsWithDelimiter lastSeg.text
  let blocking := optIn tagName blockingTags || optIn lastTagName blockingTags
  let sameTag := tagName == lastTagName
  let validRepeat := sameTag && !(optIn tagName invalidTags)
  let changedTag := tagName != lastTagName
  endsWithDelim || blocking || validRepeat || changedTag

/-- The list of strings built by TextBuffer._flush_phrases, line 54 of
src/buffer.py: for each phrase, "".join of its segment texts followed by
.strip(). -/
def originalTextsOf (phrases : List (List Seg)) : List String :=
  phrases.map (fun ph => pyStrip (joinTexts (ph.map Seg.text)))

/-- Reinsertion of one (phrase, translated text) pair, from the loop body
of TextBuffer._flush_phrases.  If the first segment node is an element
(bs4 Tag): detach the other segment nodes, clear the element, append a
text child holding the translated string.  Otherwise: pick the wrapper
(a clone of the parent, or a fresh "p" element when the parent is missing
or falsy-named or its name is in the invalid set), give it the translated
string as its only child, insert it immediately before the first segment
node, and detach every segment node of the phrase.  The debug printing of
the source is a side channel with no tree effect and is not modelled. -/
def reinsertPhrase (t : DTree) (phrase : List Seg) (translated : String) : DTree :=
  match phrase with
  | [] => t
  | firstSeg :: rest =>
    match getKind t firstSeg.node with
    | some (.elem _ _) =>
      let t1 := rest.foldl (fun acc s => extract acc s.node) t
      let t2 := clearChildren t1 firstSeg.node
      let (t3, txtId) := addNode t2 (.txt translated)
      appendChild t3 firstSeg.node txtId
    | _ =>
      let pname := match parentOf t firstSeg.node with
        | none => none
        | some p =>
          match getKind t p with
          | some (.elem nm _) => some nm
          | _ => none
      -- "if not parent_tag_name or parent_tag_name in self.invalid_tags";
      -- not parent_tag_name is true for None and for the empty string.
      let newKind :=
        match pname with
        | none => NodeKind.elem "p" []
        | some nm =>
          if nm == "" || invalidTags.contains nm then NodeKind.elem "p" []
          else NodeKind.elem nm (parentAttrsOf t firstSeg.node)
      let (t1, newId) := addNode t newKind
      let (t2, txtId) := addNode t1 (.txt translated)
      let t3 := appendChild t2 newId txtId
      let t4 := insertBefore t3 firstSeg.node newId
      phrase.foldl (fun acc s => extract acc s.node) t4

/-- Result of one TextBuffer operation: the tree and buffer afterwards,
the argument of the translation-function call when one was made, the
phrases drained on a successful flush, and the error message when the
batch-size assertion failed. -/
structure FlushResult where
  tree : DTree
  buf : TextBuffer
  call : Option (List String)
  submitted : List (List Seg)
  err : Option String
deriving DecidableEq

/-- TextBuffer._flush_phrases: return early when the Pending Queue is
empty; otherwise build the stripped concatenations, call the injected
translation function once, assert that the result has as many entries as
there are phrases (a mismatch aborts the flush before any tree mutation),
reinsert each pair in order, and clear the Pending Queue. -/
def flushPhrases (f : List String → List String) (t : DTree) (b : TextBuffer) : FlushResult :=
  if b.phrases.isEmpty then ⟨t, b, none, [], none⟩
  else
    let originalTexts := originalTextsOf b.phrases
    let translations := f originalTexts
    if translations.length == b.phrases.length then
      let t1 := (b.phrases.zip translations).foldl (fun acc pt => reinsertPhrase acc pt.1 pt.2) t
      ⟨t1, { b with phrases := [] }, some originalTexts, b.phrases, none⟩
    else
      ⟨t, b, some originalTexts, [], some "Mismatch in batch size"⟩

/-- TextBuffer.add: when the Current Phrase is non-empty, consult the
boundary rule against its last segment and commit the Current Phrase
first when a boundary is forced; append the candidate segment to the
Current Phrase; flush the Pending Queue when it has reached the batch
size. -/
def TextBuffer.add (f : List String → List String) (t : DTree) (b : TextBuffer) (seg : Seg) : FlushResult :=
  let b1 :=
    match b.currentPhrase.getLast? with
    | none => b
    | some lastSeg => if forceBoundary t lastSeg seg then commitPhrase b else b
  let b2 := { b1 with currentPhrase := b1.currentPhrase ++ [seg] }
  if b2.phrases.length ≥ b2.batchSize then flushPhrases f t b2
  else ⟨t, b2, none, [], none⟩

/-- TextBuffer.flush: commit the Current Phrase when non-empty, then
flush the Pending Queue when non-empty. -/
def TextBuffer.flush (f : List String → List String) (t : DTree) (b : TextBuffer) : FlushResult :=
  let b1 := if b.currentPhrase.isEmpty then b else commitPhrase b
  if b1.phrases.isEmpty then ⟨t, b1, none, [], none⟩
  else flushPhrases f t b1

/-! ## Traces of buffer operations -/

/-- One external operation on a TextBuffer. -/
inductive BufOp where
  | add (seg : Seg)
  | flush
deriving DecidableEq

/-- Run one operation. -/
def runOp (f : List String → List String) (t : DTree) (b : TextBuffer) : BufOp → FlushResult
  | .add seg => TextBuffer.add f t b seg
  | .flush => TextBuffer.flush f t b

/-- Accumulated outcome of a sequence of operations: final tree and
buffer, every translation-function call argument in order, every phrase
drained in order, and the first error if one occurred (a Python assertion
aborts the run). -/
structure RunOut where
  tree : DTree
  buf : TextBuffer
  calls : List (List String)
  flushed : List (List Seg)
  err : Option String
deriving DecidableEq

/-- Run a sequence of operations, aborting at the first error. -/
def runOps (f : List String → List String) (t : DTree) (b : TextBuffer) : List BufOp → RunOut
  | [] => ⟨t, b, [], [], none⟩
  | op :: rest =>
    let r := runOp f t b op
    match r.err with
    | some e => ⟨r.tree, r.buf, r.call.toList, r.submitted, some e⟩
    | none =>
      let ro := runOps f r.tree r.buf rest
      ⟨ro.tree, ro.buf, r.call.toList ++ ro.calls, r.submitted ++ ro.flushed, ro.err⟩

/-- The segments fed by the add operations of a trace, in order. -/
def addedSegs (ops : List BufOp) : List Seg :=
  ops.filterMap (fun op => match op with | .add s => some s | .flush => none)

/-! ## Document visitor (src/utilities.py, translate_visible_text) -/

/-- The invisible parent set of translate_visible_text. -/
def invisibleParents : List String := ["style", "script", "head", "meta", "[document]"]

/-- Whether a node is a NavigableString in the wide sense (isinstance of
str): bare text or comment. -/
def isStringNode (t : DTree) (n : NodeId) : Bool :=
  match getKind t n with
  | some (.txt _) => true
  | some (.comment _) => true
  | _ => false

/-- Whether a node is a bs4 Comment. -/
def isCommentNode (t : DTree) (n : NodeId) : Bool :=
  match getKind t n with
  | some (.comment _) => true
  | _ => false

/-- The raw string contents of a string node (str(tag)). -/
def nodeText (t : DTree) (n : NodeId) : String :=
  match getKind t n with
  | some (.txt s) => s
  | some (.comment s) => s
  | _ => ""

/-- The eligibility condition of the visitor loop in
translate_visible_text: the node has a (truthy) parent, the parent tag
name is not in the invisible set (which contains "[document]", the name
of the root object), the node is not a Comment, the node is a string, and
its stripped content is non-empty. -/
def visitorFeeds (t : DTree) (n : NodeId) : Bool :=
  (parentOf t n).isSome
    && !(optIn (parentNameOf t n) invisibleParents)
    && !(isCommentNode t n)
    && isStringNode t n
    && pyStrip (nodeText t n) != ""

/-- Depth-first document-order listing of the string nodes below a node,
as soup.find_all(string=True).  Fuel bounds the recursion depth; any
fuel of at least the number of stored nodes is enough for a well-formed
tree. -/
def dfsStrings (t : DTree) : Nat → NodeId → List NodeId
  | 0, _ => []
  | Nat.succ fuel, n =>
    match getKind t n with
    | some (.elem _ _) => (childrenOf t n).foldr (fun c acc => dfsStrings t fuel c ++ acc) []
    | some (.txt _) => [n]
    | some (.comment _) => [n]
    | none => []

/-- The visitor loop of translate_visible_text: walk the string nodes
found in the original tree, test each against the live tree, and feed the
eligible ones to TextBuffer.add. -/
def visitLoop (f : List String → List String) (t : DTree) (b : TextBuffer) : List NodeId → DTree × TextBuffer × Option String
  | [] => (t, b, none)
  | n :: rest =>
    if visitorFeeds t n then
      let r := TextBuffer.add f t b ⟨n, nodeText t n⟩
      match r.err with
      | some e => (r.tree, r.buf, some e)
      | none => visitLoop f r.tree r.buf rest
    else visitLoop f t b rest

/-- The tree-level core of translate_visible_text: build a TextBuffer
with the default batch size (the call site passes only translate_func and
debug), run the visitor loop over all string nodes from the given root,
then force a final flush.  Declaration stripping, parsing and
serialization are byte-level concerns outside this model. -/
def translateVisibleText (f : List String → List String) (t : DTree) (root : NodeId) : DTree × TextBuffer × Option String :=
  let buffer := mkBuffer
  match visitLoop f t buffer (dfsStrings t (t.kind.length + 1) root) with
  | (t1, b1, some e) => (t1, b1, some e)
  | (t1, b1, none) =>
    let fr := TextBuffer.flush f t1 b1
    (fr.tree, fr.buf, fr.err)

/-! ## Translator (src/translator.py) -/

/-- Python "x or default" on an optional language argument: None and the
empty string both fall back to the default. -/
def pyOrDefault (o : Option String) (dflt : String) : String :=
  match o with
  | none => dflt
  | some v => if v == "" then dflt else v

/-- The Translator class: the llm field stands for the prompt-and-model
pipeline invoked by the graph node; given (text, source language, target
language) it returns the message content. -/
structure Translator where
  llm : String → String → String → String
  defaultSourceLanguage : String := "english"
  defaultTargetLanguage : String := "italian"

/-- The translate_text graph node of src/translator.py: invoke the model
and, mirroring "translation.strip() if translation else ''", strip the
content unless it is empty. -/
def translateTextNode (tr : Translator) (text src tgt : String) : String :=
  let translation := tr.llm text src tgt
  if translation == "" then "" else pyStrip translation

/-- Translator.translate from src/translator.py: return [] when the input
list is empty or every entry strips to the empty string; return the input
unchanged when source and target language coincide; otherwise run the
graph once per entry and collect the translations. -/
def Translator.translate (tr : Translator) (text : List String) (sourceLanguage targetLanguage : Option String) : List String :=
  if text.isEmpty || !(text.any (fun s => pyStrip s != "")) then []
  else
    let src := pyOrDefault sourceLanguage tr.defaultSourceLanguage
    let tgt := pyOrDefault targetLanguage tr.defaultTargetLanguage
    if src == tgt then text
    else text.map (fun s => translateTextNode tr s src tgt)

/-! ## Book level (src/utilities.py) -/

/-- ebooklib item type constants. -/
def ITEM_DOCUMENT : Nat := 9

/-- ebooklib item type constant for navigation items. -/
def ITEM_NAVIGATION : Nat := 4

/-- ebooklib item type constant for cover images. -/
def ITEM_COVER : Nat := 10

/-- One epub item: id, file name, media type, content and item type. -/
structure EItem where
  uid : String
  fileName : String
  mediaType : String
  content : String
  itemType : Nat
deriving DecidableEq

/-- A table-of-contents entry: a Link (href, title, uid), a (Link,
subitems) section pair, or any other entry kept unchanged. -/
inductive TocEntry where
  | link (href title uid : String)
  | sect (href title uid : String) (subs : List TocEntry)
  | other

/-- An ebooklib EpubBook, modelled at the metadata and item level.  A
fresh EpubBook starts with language "en". -/
structure EpubBook where
  identifier : Option String := none
  title : Option String := none
  language : String := "en"
  items : List EItem := []
  toc : List TocEntry := []
  spine : List String := []

/-- ebooklib EpubBook.add_item. -/
def add_item (b : EpubBook) (it : EItem) : EpubBook :=
  { b with items := b.items ++ [it] }

/-- is_file_in_book from src/utilities.py. -/
def is_file_in_book (b : EpubBook) (filename : String) : Bool :=
  b.items.any (fun it => it.fileName == filename)

/-- get_number_of_items from src/utilities.py. -/
def get_number_of_items (b : EpubBook) : Nat :=
  b.items.length

/-- move_metadata from src/utilities.py: copy identifier and title when
the source book has them, then set the language of the new book to the
constant "it". -/
def move_metadata (book new_book : EpubBook) : EpubBook :=
  let nb1 := if book.identifier.isSome then { new_book with identifier := book.identifier } else new_book
  let nb2 := if book.title.isSome then { nb1 with title := book.title } else nb1
  { nb2 with language := "it" }

/-- Lookup in the translated_items dictionary. -/
def lookupItem (d : List (String × EItem)) (k : String) : Option EItem :=
  (d.find? (fun e => e.1 == k)).map (·.2)

/-- replace_toc_items from src/utilities.py: rewrite Link hrefs through
the translated_items dictionary, recursing into section pairs. -/
def replace_toc_items (translated_items : List (String × EItem)) : List TocEntry → List TocEntry
  | [] => []
  | e :: rest =>
    (match e with
     | .link href title uid =>
       match lookupItem translated_items href with
       | some it => TocEntry.link it.fileName title uid
       | none => TocEntry.link href title uid
     | .sect href title uid subs =>
       let newSubs := replace_toc_items translated_items subs
       (match lookupItem translated_items href with
        | some it => TocEntry.sect it.fileName title uid newSubs
        | none => TocEntry.sect href title uid newSubs)
     | .other => TocEntry.other) :: replace_toc_items translated_items rest

/-- translate_and_add_items from src/utilities.py: for each document item
build a new item whose content is the translated markup (tvf stands for
the translate_visible_text composite applied to the item content) and
record it in the dictionary under the original item id; copy every other
item unchanged. -/
def translate_and_add_items (tvf : String → String) (book translated_book : EpubBook) : EpubBook × List (String × EItem) :=
  book.items.foldl
    (fun acc item =>
      if item.itemType == ITEM_DOCUMENT then
        let newItem : EItem :=
          { uid := item.uid, fileName := item.fileName, mediaType := item.mediaType,
            content := tvf item.content, itemType := ITEM_DOCUMENT }
        (add_item acc.1 newItem, acc.2 ++ [(item.uid, newItem)])
      else (add_item acc.1 item, acc.2))
    (translated_book, [])

/-- set_translated_toc from src/utilities.py. -/
def set_translated_toc (book translated_book : EpubBook) (translated_items : List (String × EItem)) : EpubBook :=
  if book.toc.isEmpty then translated_book
  else { translated_book with toc := replace_toc_items translated_items book.toc }

/-- set_translated_spine from src/utilities.py (spine entries modelled as
item ids). -/
def set_translated_spine (book translated_book : EpubBook) (translated_items : List (String × EItem)) : EpubBook :=
  { translated_book with
    spine := book.spine.map (fun origId =>
      match lookupItem translated_items origId with
      | some it => it.uid
      | none => origId) }

/-- ebooklib EpubBook.set_cover, modelled at the item level: add a cover
image item. -/
def set_cover (b : EpubBook) (fileName content : String) : EpubBook :=
  { b with items := b.items ++ [⟨"cover-img", fileName, "image", content, ITEM_COVER⟩] }

/-- add_cover from src/utilities.py. -/
def add_cover (book translated_book : EpubBook) : EpubBook :=
  match book.items.find? (fun it => it.uid == "cover") with
  | some coverItem =>
    if !(is_file_in_book translated_book coverItem.fileName) then
      set_cover (add_item translated_book coverItem) coverItem.fileName coverItem.content
    else translated_book
  | none => translated_book

/-- add_ncx from src/utilities.py: add an EpubNcx item (id "ncx", file
toc.ncx) when none is present. -/
def add_ncx (translated_book : EpubBook) : EpubBook :=
  if !(is_file_in_book translated_book "toc.ncx") then
    add_item translated_book ⟨"ncx", "toc.ncx", "application/x-dtbncx+xml", "", 0⟩
  else translated_book

/-- translate_book from src/utilities.py: build a fresh EpubBook, move
the metadata, translate and add the items, rewrite the table of contents
and the spine, and add cover and ncx. -/
def translate_book (tvf : String → String) (book : EpubBook) : EpubBook :=
  let translated_book : EpubBook := {}
  let tb1 := move_metadata book translated_book
  let r := translate_and_add_items tvf book tb1
  let tb3 := set_translated_toc book r.1 r.2
  let tb4 := set_translated_spine book tb3 r.2
  let tb5 := add_cover book tb4
  add_ncx tb5

/-! ## Claim-side renditions (written from the wording of the spec, for
comparison with the definitions taken from the source) -/

/-- Drop trailing whitespace only. -/
def trimTrailing (s : String) : String :=
  ⟨stripRightList s.data⟩

/-- Spec wording of the delimiter test: the text, trimmed of trailing
whitespace, ends in one of . ! ? ; : . -/
def claimEndsWithDelim (s : String) : Bool :=
  match (trimTrailing s).data.getLast? with
  | some c => isDelim c
  | none => false

/-- Spec wording of the boundary rule: ends_with_delimiter OR blocking OR
valid_repeat OR changed_context, with parent tag names read off the
tree. -/
def claimBoundary (t : DTree) (lastSeg cand : Seg) : Bool :=
  let tagName := parentNameOf t cand.node
  let lastTagName := parentNameOf t lastSeg.node
  claimEndsWithDelim lastSeg.text
    || (optIn tagName blockingTags || optIn lastTagName blockingTags)
    || (tagName == lastTagName && !(optIn tagName invalidTags))
    || (tagName != lastTagName)

/-- Whether a node is an element. -/
def isElemNode (t : DTree) (n : NodeId) : Bool :=
  match getKind t n with
  | some (.elem _ _) => true
  | _ => false

/-- The tag name of a node kind, when it is an element. -/
def elemName : NodeKind → Option String
  | .elem nm _ => some nm
  | _ => none

/-- Spec wording of the visitor eligibility condition: the node has a
parent, the parent is not the document root and its tag name is not in
the four-element invisible set, the node is not a comment, and the
trimmed content is non-empty. -/
def claimFeeds (t : DTree) (root n : NodeId) : Prop :=
  (∃ p nm a, parentOf t n = some p ∧ p ≠ root ∧ getKind t p = some (.elem nm a)
    ∧ nm ∉ (["style", "script", "head", "meta"] : List String))
  ∧ isCommentNode t n = false
  ∧ pyStrip (nodeText t n) ≠ ""

/-- Spec wording of the wrapper rule of the Reinsertion Engine: a clone
of the parent of the first segment (same tag name, same attributes) when
that parent exists and its tag name is not in the invalid set, otherwise
a fresh "p" element with no attributes. -/
def claimWrapKind (t : DTree) (n : NodeId) : NodeKind :=
  match parentOf t n with
  | none => NodeKind.elem "p" []
  | some p =>
    match getKind t p with
    | some (.elem nm a) =>
      if invalidTags.contains nm then NodeKind.elem "p" [] else NodeKind.elem nm a
    | _ => NodeKind.elem "p" []

/-! ## Auxiliary notions and concrete fixtures -/

/-- All segments held by a buffer, pending phrases first, in order. -/
def bufSegs (b : TextBuffer) : List Seg :=
  b.phrases.flatten ++ b.currentPhrase

/-- Concatenation of the raw texts of a list of segments. -/
def textOfSegs (l : List Seg) : String :=
  joinTexts (l.map Seg.text)

/-- A small concrete document: root (id 0, tag "[document]") containing a
div (id 1) with two text leaves "Hello " (id 2) and "world." (id 3). -/
def exTree : DTree :=
  ⟨[(0, .elem "[document]" []), (1, .elem "div" [("class", "x")]), (2, .txt "Hello "), (3, .txt "world.")],
   [(0, [1]), (1, [2, 3])], 4⟩

/-! # Lemmas about the delimiter test -/

theorem mem_takeWhile_ws {p : Char → Bool} : ∀ {l : List Char} {a : Char}, a ∈ l.takeWhile p → p a = true := by
  intro l
  induction l with
  | nil => intro a h; simp [List.takeWhile] at h
  | cons c rest ih =>
    intro a h
    rw [List.takeWhile_cons] at h
    by_cases hc : p c
    · simp [hc] at h
      rcases h with h | h
      · rwa [h]
      · exact ih h
    · simp [hc] at h

theorem delimThenWs_head (l : List Char) :
    delimThenWs l = (match (l.dropWhile pyWhitespace).head? with
      | some c => isDelim c
      | none => false) := by
  induction l with
  | nil => rfl
  | cons c rest ih =>
    by_cases hc : pyWhitespace c
    · simp [delimThenWs, hc, List.dropWhile_cons, ih]
    · simp [delimThenWs, hc, List.dropWhile_cons]

theorem delimThenWs_dropWhile (l : List Char) :
    delimThenWs (l.dropWhile pyWhitespace) = delimThenWs l := by
  induction l with
  | nil => rfl
  | cons c rest ih =>
    by_cases hc : pyWhitespace c
    · simp [List.dropWhile_cons, hc, ih, delimThenWs]
    · simp [List.dropWhile_cons, hc]

theorem delimThenWs_all_ws (w : List Char) (h : ∀ a ∈ w, pyWhitespace a = true) :
    delimThenWs w = false := by
  induction w with
  | nil => rfl
  | cons c rest ih =>
    have hc : pyWhitespace c = true := h c (by simp)
    simp [delimThenWs, hc]
    exact ih (fun a ha => h a (by simp [ha]))

theorem delimThenWs_append_ws (l w : List Char) (h : ∀ a ∈ w, pyWhitespace a = true) :
    delimThenWs (l ++ w) = delimThenWs l := by
  induction l with
  | nil => simpa using delimThenWs_all_ws w h
  | cons c rest ih =>
    by_cases hc : pyWhitespace c
    · simp [delimThenWs, hc, ih]
    · simp [delimThenWs, hc]

theorem stripRightList_reverse (l : List Char) :
    (stripRightList l).reverse = l.reverse.dropWhile pyWhitespace := by
  simp [stripRightList]

/-- The regex test of the source agrees with the spec wording: the text,
trimmed of trailing whitespace, ends in a delimiter. -/
theorem endsWithDelimiter_eq_claim (s : String) :
    endsWithDelimiter s = claimEndsWithDelim s := by
  have hclaim : claimEndsWithDelim s =
      (match (s.data.reverse.dropWhile pyWhitespace).head? with
        | some c => isDelim c
        | none => false) := by
    have : (trimTrailing s).data.getLast? = (s.data.reverse.dropWhile pyWhitespace).head? := by
      show (stripRightList s.data).getLast? = _
      rw [List.getLast?_eq_head?_reverse, stripRightList_reverse]
    simp only [claimEndsWithDelim, this]
  have hsrc : endsWithDelimiter s = delimThenWs s.data.reverse := by
    show delimThenWs (stripList s.data).reverse = delimThenWs s.data.reverse
    have h1 : (stripList s.data).reverse
        = (s.data.dropWhile pyWhitespace).reverse.dropWhile pyWhitespace := by
      simp [stripList, stripRightList_reverse]
    rw [h1, delimThenWs_dropWhile]
    have hsplit : s.data.reverse
        = (s.data.dropWhile pyWhitespace).reverse ++ (s.data.takeWhile pyWhitespace).reverse := by
      rw [← List.reverse_append, List.takeWhile_append_dropWhile]
    rw [hsplit, delimThenWs_append_ws]
    intro a ha
    exact mem_takeWhile_ws (List.mem_reverse.mp ha)
  rw [hsrc, hclaim, delimThenWs_head]

/-! # Lemmas about parent names -/

/-- For a truthy node, the guarded parent-name lookup of the source is
the plain parent tag name. -/
theorem get_parent_name_eq (t : DTree) (n : NodeId) (h : nodeTruthy t n = true) :
    get_parent_name t n = parentNameOf t n := by
  unfold get_parent_name
  cases hp : parentOf t n with
  | none => simp [hp, parentNameOf]
  | some p => simp [hp, h]

/-- Claim C2: whenever add is called while the Current Phrase already
holds at least one segment, a boundary is forced (the Current Phrase is
committed to the Pending Queue before the candidate segment is appended)
if and only if ends_with_delimiter OR blocking OR valid_repeat OR
changed_context holds, with the atoms as defined by the spec; and no
boundary check occurs when the Current Phrase is empty.  The parent-name
bridge needs the segment nodes to be truthy, which holds for every
segment the program ever feeds (their stripped text is non-empty).  The
queue-below-batch-size hypotheses keep the trailing flush out of the
picture so that the commit-before-append behaviour is visible in the
result state. -/
theorem C2_boundary_rule :
    (∀ (t : DTree) (lastSeg cand : Seg), nodeTruthy t lastSeg.node = true →
      nodeTruthy t cand.node = true →
      forceBoundary t lastSeg cand = claimBoundary t lastSeg cand)
    ∧ (∀ (f : List String → List String) (t : DTree) (b : TextBuffer) (seg : Seg),
        b.currentPhrase = [] → b.phrases.length < b.batchSize →
        TextBuffer.add f t b seg = ⟨t, { b with currentPhrase := [seg] }, none, [], none⟩)
    ∧ (∀ (f : List String → List String) (t : DTree) (b : TextBuffer) (seg lastSeg : Seg),
        b.currentPhrase.getLast? = some lastSeg →
        forceBoundary t lastSeg seg = true → b.phrases.length + 1 < b.batchSize →
        TextBuffer.add f t b seg
          = ⟨t, ⟨b.batchSize, [seg], b.phrases ++ [b.currentPhrase]⟩, none, [], none⟩)
    ∧ (∀ (f : List String → List String) (t : DTree) (b : TextBuffer) (seg lastSeg : Seg),
        b.currentPhrase.getLast? = some lastSeg →
        forceBoundary t lastSeg seg = false → b.phrases.length < b.batchSize →
        TextBuffer.add f t b seg
          = ⟨t, { b with currentPhrase := b.currentPhrase ++ [seg] }, none, [], none⟩) := by
  refine ⟨?_, ?_, ?_, ?_⟩
  · intro t lastSeg cand hlast hcand
    simp only [forceBoundary, claimBoundary]
    rw [get_parent_name_eq t cand.node hcand, get_parent_name_eq t lastSeg.node hlast,
      endsWithDelimiter_eq_claim]
  · intro f t b seg hcur hlt
    simp only [TextBuffer.add, hcur, List.getLast?_nil]
    have : ¬ (b.phrases.length ≥ b.batchSize) := by omega
    simp [this, hcur]
  · intro f t b seg lastSeg hlast hforce hlt
    have hne : b.currentPhrase.isEmpty = false := by
      cases hc : b.currentPhrase with
      | nil => rw [hc] at hlast; simp at hlast
      | cons x xs => simp [hc]
    have hcond : ¬ (b.batchSize ≤ (b.phrases ++ [b.currentPhrase]).length) := by
      simp; omega
    simp only [TextBuffer.add, hlast, hforce, if_true, commitPhrase, hne, Bool.false_eq_true,
      if_false]
    simp [hcond]
    intro hc
    exact absurd hc (by omega)
  · intro f t b seg lastSeg hlast hforce hlt
    simp only [TextBuffer.add, hlast, hforce]
    have hlen : ¬ (b.phrases.length ≥ b.batchSize) := by omega
    simp [hlen]

/-- Witness for C2 at a concrete input: in the example document both
leaves sit under the same div, so the boundary rule fires (valid
repeat), and the source rule agrees with the spec rendition. -/
theorem flushPhrases_of_ne (f : List String → List String) (t : DTree) (b : TextBuffer)
    (hne : b.phrases ≠ []) :
    flushPhrases f t b =
      if (f (originalTextsOf b.phrases)).length == b.phrases.length then
        ⟨(b.phrases.zip (f (originalTextsOf b.phrases))).foldl
            (fun acc pt => reinsertPhrase acc pt.1 pt.2) t,
          { b with phrases := [] }, some (originalTextsOf b.phrases), b.phrases, none⟩
      else ⟨t, b, some (originalTextsOf b.phrases), [], some "Mismatch in batch size"⟩ := by
  have hie : b.phrases.isEmpty = false := by
    cases hp : b.phrases with
    | nil => exact absurd hp hne
    | cons x xs => simp
  simp only [flushPhrases, hie, Bool.false_eq_true, if_false]

theorem commitPhrase_bufSegs (b : TextBuffer) : bufSegs (commitPhrase b) = bufSegs b := by
  unfold commitPhrase
  split
  · rfl
  · simp [bufSegs]

theorem flushPhrases_conservation (f : List String → List String) (t : DTree) (b : TextBuffer)
    (h : (flushPhrases f t b).err = none) :
    (flushPhrases f t b).submitted.flatten ++ bufSegs (flushPhrases f t b).buf = bufSegs b := by
  by_cases hne : b.phrases = []
  · simp [flushPhrases, hne]
  · rw [flushPhrases_of_ne f t b hne] at h ⊢
    split at h
    · next hlen => simp [flushPhrases_of_ne, hne, hlen, bufSegs]
    · next hlen => simp at h

theorem maybeFlush_conservation (f : List String → List String) (t : DTree) (b2 : TextBuffer)
    (h : (if b2.phrases.length ≥ b2.batchSize then flushPhrases f t b2
          else ⟨t, b2, none, [], none⟩).err = none) :
    (if b2.phrases.length ≥ b2.batchSize then flushPhrases f t b2
      else ⟨t, b2, none, [], none⟩).submitted.flatten
      ++ bufSegs (if b2.phrases.length ≥ b2.batchSize then flushPhrases f t b2
          else ⟨t, b2, none, [], none⟩).buf = bufSegs b2 := by
  split at h
  · next hc => simp only [if_pos hc]; exact flushPhrases_conservation f t b2 h
  · next hc => simp [if_neg hc]

theorem add_conservation (f : List String → List String) (t : DTree) (b : TextBuffer) (seg : Seg)
    (h : (TextBuffer.add f t b seg).err = none) :
    (TextBuffer.add f t b seg).submitted.flatten ++ bufSegs (TextBuffer.add f t b seg).buf
      = bufSegs b ++ [seg] := by
  have hpush : ∀ b1 : TextBuffer, bufSegs b1 = bufSegs b →
      bufSegs { b1 with currentPhrase := b1.currentPhrase ++ [seg] } = bufSegs b ++ [seg] := by
    intro b1 hb1
    simp only [bufSegs] at hb1 ⊢
    rw [← List.append_assoc, hb1]
  unfold TextBuffer.add at h ⊢
  cases hlast : b.currentPhrase.getLast? with
  | none =>
    simp only [hlast] at h ⊢
    have hc := maybeFlush_conservation f t { b with currentPhrase := b.currentPhrase ++ [seg] } h
    rw [hpush b rfl] at hc
    exact hc
  | some lastSeg =>
    cases hf : forceBoundary t lastSeg seg with
    | true =>
      simp only [hlast, hf, if_true] at h ⊢
      have hc := maybeFlush_conservation f t
        { commitPhrase b with currentPhrase := (commitPhrase b).currentPhrase ++ [seg] } h
      rw [hpush (commitPhrase b) (commitPhrase_bufSegs b)] at hc
      exact hc
    | false =>
      simp only [hlast, hf, Bool.false_eq_true, if_false] at h ⊢
      have hc := maybeFlush_conservation f t { b with currentPhrase := b.currentPhrase ++ [seg] } h
      rw [hpush b rfl] at hc
      exact hc

theorem flush_eq (f : List String → List String) (t : DTree) (b : TextBuffer) :
    TextBuffer.flush f t b =
      (if (if b.currentPhrase.isEmpty then b else commitPhrase b).phrases.isEmpty
        then ⟨t, (if b.currentPhrase.isEmpty then b else commitPhrase b), none, [], none⟩
        else flushPhrases f t (if b.currentPhrase.isEmpty then b else commitPhrase b)) := rfl

theorem flush_conservation (f : List String → List String) (t : DTree) (b : TextBuffer)
    (h : (TextBuffer.flush f t b).err = none) :
    (TextBuffer.flush f t b).submitted.flatten ++ bufSegs (TextBuffer.flush f t b).buf
      = bufSegs b := by
  rw [flush_eq] at h ⊢
  set b1 := if b.currentPhrase.isEmpty then b else commitPhrase b with hb1
  have hsegs : bufSegs b1 = bufSegs b := by
    rw [hb1]
    split
    · rfl
    · exact commitPhrase_bufSegs b
  by_cases hp : b1.phrases.isEmpty = true
  · simp only [if_pos hp]
    simpa using hsegs
  · simp only [if_neg hp] at h ⊢
    rw [flushPhrases_conservation f t b1 h]
    exact hsegs

theorem flush_success (f : List String → List String) (t : DTree) (b : TextBuffer)
    (h : (TextBuffer.flush f t b).err = none) :
    (TextBuffer.flush f t b).buf.currentPhrase = [] ∧ (TextBuffer.flush f t b).buf.phrases = [] := by
  rw [flush_eq] at h ⊢
  set b1 := if b.currentPhrase.isEmpty then b else commitPhrase b with hb1
  have hcur : b1.currentPhrase = [] := by
    rw [hb1]
    split
    · next hc => exact List.isEmpty_eq_true.mp hc
    · next hc =>
      unfold commitPhrase
      split
      · next hc2 => exact absurd hc2 hc
      · rfl
  by_cases hp : b1.phrases.isEmpty = true
  · simp only [if_pos hp]
    exact ⟨hcur, List.isEmpty_eq_true.mp hp⟩
  · simp only [if_neg hp] at h ⊢
    have hne : b1.phrases ≠ [] := by
      intro hx
      exact hp (by simp [hx])
    rw [flushPhrases_of_ne f t b1 hne] at h ⊢
    split at h
    · next hlen => simp only [if_pos hlen]; exact ⟨hcur, by trivial⟩
    · next hlen => simp at h

theorem runOps_cons (f : List String → List String) (t : DTree) (b : TextBuffer)
    (op : BufOp) (rest : List BufOp) :
    runOps f t b (op :: rest) =
      (match (runOp f t b op).err with
        | some e => ⟨(runOp f t b op).tree, (runOp f t b op).buf,
            (runOp f t b op).call.toList, (runOp f t b op).submitted, some e⟩
        | none =>
          ⟨(runOps f (runOp f t b op).tree (runOp f t b op).buf rest).tree,
            (runOps f (runOp f t b op).tree (runOp f t b op).buf rest).buf,
            (runOp f t b op).call.toList
              ++ (runOps f (runOp f t b op).tree (runOp f t b op).buf rest).calls,
            (runOp f t b op).submitted
              ++ (runOps f (runOp f t b op).tree (runOp f t b op).buf rest).flushed,
            (runOps f (runOp f t b op).tree (runOp f t b op).buf rest).err⟩) := rfl

theorem runOp_conservation (f : List String → List String) (t : DTree) (b : TextBuffer)
    (op : BufOp) (h : (runOp f t b op).err = none) :
    (runOp f t b op).submitted.flatten ++ bufSegs (runOp f t b op).buf
      = bufSegs b ++ addedSegs [op] := by
  cases op with
  | add seg => simpa [runOp, addedSegs] using add_conservation f t b seg h
  | flush => simpa [runOp, addedSegs] using flush_conservation f t b h

theorem runOps_conservation (f : List String → List String) :
    ∀ (ops : List BufOp) (t : DTree) (b : TextBuffer),
      (runOps f t b ops).err = none →
      (runOps f t b ops).flushed.flatten ++ bufSegs (runOps f t b ops).buf
        = bufSegs b ++ addedSegs ops := by
  intro ops
  induction ops with
  | nil => intro t b _; simp [runOps, addedSegs]
  | cons op rest ih =>
    intro t b h
    rw [runOps_cons] at h ⊢
    cases herr : (runOp f t b op).err with
    | some e => simp only [herr] at h; exact Option.noConfusion h
    | none =>
      simp only [herr] at h ⊢
      have hop := runOp_conservation f t b op herr
      have hrest := ih (runOp f t b op).tree (runOp f t b op).buf h
      have haddcons : addedSegs (op :: rest) = addedSegs [op] ++ addedSegs rest := by
        cases op <;> simp [addedSegs]
      rw [List.flatten_append, List.append_assoc, hrest, ← List.append_assoc, hop,
        List.append_assoc, haddcons]

theorem runOps_flush_last (f : List String → List String) :
    ∀ (ops : List BufOp) (t : DTree) (b : TextBuffer),
      (runOps f t b (ops ++ [BufOp.flush])).err = none →
      bufSegs (runOps f t b (ops ++ [BufOp.flush])).buf = [] := by
  intro ops
  induction ops with
  | nil =>
    intro t b h
    rw [List.nil_append, runOps_cons] at h ⊢
    simp only [runOp] at h ⊢
    cases herr : (TextBuffer.flush f t b).err with
    | some e => simp only [herr] at h; exact Option.noConfusion h
    | none =>
      simp only [herr] at h ⊢
      have hs := flush_success f t b herr
      simp [runOps, bufSegs, hs.1, hs.2]
  | cons op rest ih =>
    intro t b h
    rw [List.cons_append, runOps_cons] at h ⊢
    cases herr : (runOp f t b op).err with
    | some e => simp only [herr] at h; exact Option.noConfusion h
    | none =>
      simp only [herr] at h ⊢
      exact ih (runOp f t b op).tree (runOp f t b op).buf h

theorem commitPhrase_NE (b : TextBuffer) (hb : ∀ ph ∈ b.phrases, ph ≠ []) :
    ∀ ph ∈ (commitPhrase b).phrases, ph ≠ [] := by
  unfold commitPhrase
  split
  · exact hb
  · next hc =>
    intro ph hph
    rcases List.mem_append.mp hph with h1 | h1
    · exact hb ph h1
    · rw [List.mem_singleton.mp h1]
      exact List.isEmpty_eq_false.mp (by simpa using hc)

theorem flushPhrases_NE (f : List String → List String) (t : DTree) (b : TextBuffer)
    (hb : ∀ ph ∈ b.phrases, ph ≠ []) :
    (∀ ph ∈ (flushPhrases f t b).buf.phrases, ph ≠ [])
    ∧ (∀ ph ∈ (flushPhrases f t b).submitted, ph ≠ [])
    ∧ (∀ c, (flushPhrases f t b).call = some c → c ≠ []) := by
  by_cases hne : b.phrases = []
  · simp [flushPhrases, hne]
  · rw [flushPhrases_of_ne f t b hne]
    have hcall : originalTextsOf b.phrases ≠ [] := by
      simp [originalTextsOf, hne]
    split
    · refine ⟨by simp, by simpa using hb, ?_⟩
      intro c hc
      simp at hc
      rw [← hc]
      exact hcall
    · refine ⟨by simpa using hb, by simp, ?_⟩
      intro c hc
      simp at hc
      rw [← hc]
      exact hcall

theorem maybeFlush_NE (f : List String → List String) (t : DTree) (b2 : TextBuffer)
    (hb : ∀ ph ∈ b2.phrases, ph ≠ []) :
    (∀ ph ∈ (if b2.phrases.length ≥ b2.batchSize then flushPhrases f t b2
        else ⟨t, b2, none, [], none⟩).buf.phrases, ph ≠ [])
    ∧ (∀ ph ∈ (if b2.phrases.length ≥ b2.batchSize then flushPhrases f t b2
        else ⟨t, b2, none, [], none⟩).submitted, ph ≠ [])
    ∧ (∀ c, (if b2.phrases.length ≥ b2.batchSize then flushPhrases f t b2
        else ⟨t, b2, none, [], none⟩).call = some c → c ≠ []) := by
  split
  · exact flushPhrases_NE f t b2 hb
  · exact ⟨by simpa using hb, by simp, by simp⟩

theorem add_NE (f : List String → List String) (t : DTree) (b : TextBuffer) (seg : Seg)
    (hb : ∀ ph ∈ b.phrases, ph ≠ []) :
    (∀ ph ∈ (TextBuffer.add f t b seg).buf.phrases, ph ≠ [])
    ∧ (∀ ph ∈ (TextBuffer.add f t b seg).submitted, ph ≠ [])
    ∧ (∀ c, (TextBuffer.add f t b seg).call = some c → c ≠ []) := by
  unfold TextBuffer.add
  cases hlast : b.currentPhrase.getLast? with
  | none =>
    exact maybeFlush_NE f t ⟨b.batchSize, b.currentPhrase ++ [seg], b.phrases⟩ hb
  | some lastSeg =>
    dsimp only
    cases hf : forceBoundary t lastSeg seg with
    | true =>
      have hred : (if true = true then commitPhrase b else b) = commitPhrase b := if_pos rfl
      rw [hred]
      exact maybeFlush_NE f t
        ⟨(commitPhrase b).batchSize, (commitPhrase b).currentPhrase ++ [seg], (commitPhrase b).phrases⟩
        (commitPhrase_NE b hb)
    | false =>
      have hred : (if false = true then commitPhrase b else b) = b := if_neg (by simp)
      rw [hred]
      exact maybeFlush_NE f t ⟨b.batchSize, b.currentPhrase ++ [seg], b.phrases⟩ hb

theorem flush_NE (f : List String → List String) (t : DTree) (b : TextBuffer)
    (hb : ∀ ph ∈ b.phrases, ph ≠ []) :
    (∀ ph ∈ (TextBuffer.flush f t b).buf.phrases, ph ≠ [])
    ∧ (∀ ph ∈ (TextBuffer.flush f t b).submitted, ph ≠ [])
    ∧ (∀ c, (TextBuffer.flush f t b).call = some c → c ≠ []) := by
  rw [flush_eq]
  set b1 := if b.currentPhrase.isEmpty then b else commitPhrase b with hb1def
  have hb1 : ∀ ph ∈ b1.phrases, ph ≠ [] := by
    rw [hb1def]
    split
    · exact hb
    · exact commitPhrase_NE b hb
  by_cases hp : b1.phrases.isEmpty = true
  · simp only [if_pos hp]
    exact ⟨hb1, by simp, by simp⟩
  · simp only [if_neg hp]
    exact flushPhrases_NE f t b1 hb1

theorem runOp_NE (f : List String → List String) (t : DTree) (b : TextBuffer) (op : BufOp)
    (hb : ∀ ph ∈ b.phrases, ph ≠ []) :
    (∀ ph ∈ (runOp f t b op).buf.phrases, ph ≠ [])
    ∧ (∀ ph ∈ (runOp f t b op).submitted, ph ≠ [])
    ∧ (∀ c, (runOp f t b op).call = some c → c ≠ []) := by
  cases op with
  | add seg => exact add_NE f t b seg hb
  | flush => exact flush_NE f t b hb

theorem runOps_NE (f : List String → List String) :
    ∀ (ops : List BufOp) (t : DTree) (b : TextBuffer),
      (∀ ph ∈ b.phrases, ph ≠ []) →
      (∀ ph ∈ (runOps f t b ops).flushed, ph ≠ [])
      ∧ (∀ ph ∈ (runOps f t b ops).buf.phrases, ph ≠ [])
      ∧ (∀ c ∈ (runOps f t b ops).calls, c ≠ []) := by
  intro ops
  induction ops with
  | nil => intro t b hb; exact ⟨by simp [runOps], by simpa [runOps] using hb, by simp [runOps]⟩
  | cons op rest ih =>
    intro t b hb
    rw [runOps_cons]
    have hop := runOp_NE f t b op hb
    cases herr : (runOp f t b op).err with
    | some e =>
      refine ⟨by simpa using hop.2.1, by simpa using hop.1, ?_⟩
      intro c hc
      simp [Option.mem_toList] at hc
      exact hop.2.2 c hc
    | none =>
      have hrest := ih (runOp f t b op).tree (runOp f t b op).buf hop.1
      refine ⟨?_, by simpa using hrest.2.1, ?_⟩
      · intro ph hph
        rcases List.mem_append.mp (by simpa using hph) with h1 | h1
        · exact hop.2.1 ph h1
        · exact hrest.1 ph h1
      · intro c hc
        have hc2 : (runOp f t b op).call = some c
            ∨ c ∈ (runOps f (runOp f t b op).tree (runOp f t b op).buf rest).calls := by
          simpa using hc
        rcases hc2 with h1 | h1
        · exact hop.2.2 c h1
        · exact hrest.2.2 c h1

theorem strAppend_assoc (x y z : String) : x ++ y ++ z = x ++ (y ++ z) := by
  cases x with
  | mk a =>
    cases y with
    | mk b =>
      cases z with
      | mk c =>
        show String.mk ((a ++ b) ++ c) = String.mk (a ++ (b ++ c))
        rw [List.append_assoc]

theorem joinTexts_append (l₁ l₂ : List String) :
    joinTexts (l₁ ++ l₂) = joinTexts l₁ ++ joinTexts l₂ := by
  induction l₁ with
  | nil =>
    show joinTexts l₂ = String.mk ([] ++ (joinTexts l₂).data)
    rw [List.nil_append]
  | cons s rest ih =>
    show s ++ joinTexts (rest ++ l₂) = (s ++ joinTexts rest) ++ joinTexts l₂
    rw [ih, strAppend_assoc]

theorem textOfSegs_flatten (L : List (List Seg)) :
    joinTexts (L.map textOfSegs) = textOfSegs L.flatten := by
  induction L with
  | nil => rfl
  | cons ph rest ih =>
    show textOfSegs ph ++ joinTexts (rest.map textOfSegs) = _
    rw [ih]
    show _ = joinTexts ((ph ++ rest.flatten).map Seg.text)
    rw [List.map_append, joinTexts_append]
    rfl

theorem addedSegs_adds (segs : List Seg) : addedSegs (segs.map BufOp.add) = segs := by
  induction segs with
  | nil => rfl
  | cons s rest ih => simp [addedSegs, List.filterMap_cons] at ih ⊢; exact ih

theorem addedSegs_append (l₁ l₂ : List BufOp) :
    addedSegs (l₁ ++ l₂) = addedSegs l₁ ++ addedSegs l₂ := by
  simp [addedSegs, List.filterMap_append]

theorem C2_boundary_rule_witness :
    nodeTruthy exTree 2 = true ∧ nodeTruthy exTree 3 = true ∧
      forceBoundary exTree ⟨2, "Hello "⟩ ⟨3, "world."⟩
        = claimBoundary exTree ⟨2, "Hello "⟩ ⟨3, "world."⟩ :=
  ⟨by decide, by decide, C2_boundary_rule.1 exTree ⟨2, "Hello "⟩ ⟨3, "world."⟩ (by decide) (by decide)⟩

/-- Claim C1 counterexample: line 54 of src/buffer.py strips each
concatenation before handing it to the translation function, so for the
phrase whose single segment text is "Hello " the string passed is
"Hello", not the concatenation "Hello " of the segment texts. -/
theorem C1_counterexample :
    (runOps (fun l => l) exTree (mkBuffer 1) [BufOp.add ⟨2, "Hello "⟩, BufOp.flush]).calls
      = [["Hello"]]
    ∧ (runOps (fun l => l) exTree (mkBuffer 1)
        [BufOp.add ⟨2, "Hello "⟩, BufOp.flush]).flushed.map textOfSegs = ["Hello "]
    ∧ ("Hello" : String) ≠ "Hello " :=
  ⟨by decide, by decide, by decide⟩

/-- Claim C1 (amended): for every flush of a non-empty Pending Queue the
i-th string passed to the injected translation function is the
concatenation of the i-th phrase segment texts trimmed of leading and
trailing whitespace (str.strip); and for any sequence of segments fed via
add followed by a final flush that completes without error, the
concatenation of the (untrimmed) texts of all flushed phrases, in commit
order, equals the concatenation of the input segment texts in input
order. -/
theorem C1_strip_and_order :
    (∀ (f : List String → List String) (t : DTree) (b : TextBuffer), b.phrases ≠ [] →
      (flushPhrases f t b).call = some (originalTextsOf b.phrases))
    ∧ (∀ (f : List String → List String) (t : DTree) (bs : Nat) (segs : List Seg),
        (runOps f t (mkBuffer bs) (segs.map BufOp.add ++ [BufOp.flush])).err = none →
        joinTexts ((runOps f t (mkBuffer bs)
            (segs.map BufOp.add ++ [BufOp.flush])).flushed.map textOfSegs)
          = textOfSegs segs) := by
  constructor
  · intro f t b hne
    rw [flushPhrases_of_ne f t b hne]
    split <;> rfl
  · intro f t bs segs h
    have hcons := runOps_conservation f (segs.map BufOp.add ++ [BufOp.flush]) t (mkBuffer bs) h
    have hempty := runOps_flush_last f (segs.map BufOp.add) t (mkBuffer bs) h
    rw [hempty, List.append_nil] at hcons
    rw [textOfSegs_flatten, hcons, addedSegs_append, addedSegs_adds]
    simp [bufSegs, mkBuffer, addedSegs]

/-- Witness for C1 (amended) at a concrete two-segment input. -/
theorem C1_strip_and_order_witness :
    (runOps (fun l => l) exTree (mkBuffer 1)
      (([⟨2, "Hello "⟩, ⟨3, "world."⟩] : List Seg).map BufOp.add ++ [BufOp.flush])).err = none
    ∧ joinTexts ((runOps (fun l => l) exTree (mkBuffer 1)
        (([⟨2, "Hello "⟩, ⟨3, "world."⟩] : List Seg).map BufOp.add
          ++ [BufOp.flush])).flushed.map textOfSegs)
      = textOfSegs [⟨2, "Hello "⟩, ⟨3, "world."⟩] :=
  ⟨by decide,
    C1_strip_and_order.2 (fun l => l) exTree 1 [⟨2, "Hello "⟩, ⟨3, "world."⟩] (by decide)⟩

/-- Claim C3: when the injected translation function returns a list whose
length differs from the number of phrases submitted, the flush stops with
the fatal batch-size assertion, the tree is returned unchanged (no node
detached, cleared or inserted), and the Pending Queue is left as it
was. -/
theorem C3_mismatch_aborts (f : List String → List String) (t : DTree) (b : TextBuffer)
    (hne : b.phrases ≠ [])
    (hlen : (f (originalTextsOf b.phrases)).length ≠ b.phrases.length) :
    flushPhrases f t b
      = ⟨t, b, some (originalTextsOf b.phrases), [], some "Mismatch in batch size"⟩ := by
  have hc : ¬ ((f (originalTextsOf b.phrases)).length == b.phrases.length) = true := by
    simpa using hlen
  rw [flushPhrases_of_ne f t b hne, if_neg hc]

/-- Witness for C3: a stub translation function returning one string too
few aborts the flush and leaves tree and buffer untouched. -/
theorem C3_mismatch_aborts_witness :
    flushPhrases (fun _ => ([] : List String)) exTree ⟨1, [], [[⟨2, "Hello "⟩]]⟩
      = ⟨exTree, ⟨1, [], [[⟨2, "Hello "⟩]]⟩,
          some (originalTextsOf [[⟨2, "Hello "⟩]]), [], some "Mismatch in batch size"⟩ :=
  C3_mismatch_aborts (fun _ => []) exTree ⟨1, [], [[⟨2, "Hello "⟩]]⟩ (by decide) (by decide)

/-- Claim C5: for every TextBuffer with batch_size at least 1 and every
trace of add and flush operations that completes without error, every
phrase ever placed in the Pending Queue is non-empty, the translation
function is never invoked with an empty list of strings, and the segments
of the drained phrases (followed by any leftovers) are exactly the added
segments in order. -/
theorem C5_queue_invariants (f : List String → List String) (t : DTree) (ops : List BufOp)
    (bs : Nat) (hbs : 1 ≤ bs)
    (herr : (runOps f t (mkBuffer bs) ops).err = none) :
    (∀ ph ∈ (runOps f t (mkBuffer bs) ops).flushed, ph ≠ [])
    ∧ (∀ ph ∈ (runOps f t (mkBuffer bs) ops).buf.phrases, ph ≠ [])
    ∧ (∀ c ∈ (runOps f t (mkBuffer bs) ops).calls, c ≠ [])
    ∧ (runOps f t (mkBuffer bs) ops).flushed.flatten
        ++ bufSegs (runOps f t (mkBuffer bs) ops).buf = addedSegs ops := by
  have hNE := runOps_NE f ops t (mkBuffer bs) (by simp [mkBuffer])
  refine ⟨hNE.1, hNE.2.1, hNE.2.2, ?_⟩
  have h0 : bufSegs (mkBuffer bs) = [] := rfl
  rw [runOps_conservation f ops t (mkBuffer bs) herr, h0, List.nil_append]

/-- Witness for C5 at a concrete trace. -/
theorem C5_queue_invariants_witness :
    1 ≤ 1
    ∧ (runOps (fun l => l) exTree (mkBuffer 1) [BufOp.add ⟨2, "Hello "⟩, BufOp.flush]).err = none
    ∧ (runOps (fun l => l) exTree (mkBuffer 1)
          [BufOp.add ⟨2, "Hello "⟩, BufOp.flush]).flushed.flatten
        ++ bufSegs (runOps (fun l => l) exTree (mkBuffer 1)
          [BufOp.add ⟨2, "Hello "⟩, BufOp.flush]).buf
      = addedSegs [BufOp.add ⟨2, "Hello "⟩, BufOp.flush] :=
  ⟨by decide, by decide,
    (C5_queue_invariants (fun l => l) exTree [BufOp.add ⟨2, "Hello "⟩, BufOp.flush] 1
      (by decide) (by decide)).2.2.2⟩

/-- Claim C6: if flush() completes successfully, a second flush right
after it (with no add in between) is a no-op: the translation function is
not invoked (no call is recorded), the tree is returned unchanged, and
the buffer state is unchanged. -/
theorem C6_flush_idempotent (f g : List String → List String) (t : DTree) (b : TextBuffer)
    (h : (TextBuffer.flush f t b).err = none) :
    TextBuffer.flush g (TextBuffer.flush f t b).tree (TextBuffer.flush f t b).buf
      = ⟨(TextBuffer.flush f t b).tree, (TextBuffer.flush f t b).buf, none, [], none⟩ := by
  obtain ⟨hcur, hph⟩ := flush_success f t b h
  rw [flush_eq g]
  simp [hcur, hph]

/-- Witness for C6: flushing a buffer holding one current segment
succeeds, and the immediate second flush does nothing. -/
theorem C6_flush_idempotent_witness :
    (TextBuffer.flush (fun l => l) exTree ⟨1, [⟨2, "Hello "⟩], []⟩).err = none
    ∧ TextBuffer.flush (fun l => l)
        (TextBuffer.flush (fun l => l) exTree ⟨1, [⟨2, "Hello "⟩], []⟩).tree
        (TextBuffer.flush (fun l => l) exTree ⟨1, [⟨2, "Hello "⟩], []⟩).buf
      = ⟨(TextBuffer.flush (fun l => l) exTree ⟨1, [⟨2, "Hello "⟩], []⟩).tree,
          (TextBuffer.flush (fun l => l) exTree ⟨1, [⟨2, "Hello "⟩], []⟩).buf, none, [], none⟩ :=
  ⟨by decide,
    C6_flush_idempotent (fun l => l) (fun l => l) exTree ⟨1, [⟨2, "Hello "⟩], []⟩ (by decide)⟩

theorem commitPhrase_batchSize (b : TextBuffer) : (commitPhrase b).batchSize = b.batchSize := by
  unfold commitPhrase
  split <;> rfl

theorem maybeFlush_phrases_batch1 (f : List String → List String) (t : DTree) (b2 : TextBuffer)
    (hbs : b2.batchSize = 1)
    (h : (if b2.phrases.length ≥ b2.batchSize then flushPhrases f t b2
          else ⟨t, b2, none, [], none⟩).err = none) :
    (if b2.phrases.length ≥ b2.batchSize then flushPhrases f t b2
      else ⟨t, b2, none, [], none⟩).buf.phrases = [] := by
  by_cases hp : b2.phrases = []
  · have hc : ¬ (b2.phrases.length ≥ b2.batchSize) := by simp [hp, hbs]
    rw [if_neg hc]
    exact hp
  · have hge : b2.phrases.length ≥ b2.batchSize := by
      rw [hbs]
      cases hpp : b2.phrases with
      | nil => exact absurd hpp hp
      | cons x xs => simp
    rw [if_pos hge] at h ⊢
    rw [flushPhrases_of_ne f t b2 hp] at h ⊢
    split at h
    · next hl => rw [if_pos hl]
    · next hl => simp at h

/-- Claim C9: the Document Visitor constructs its TextBuffer without
overriding batch_size, so the buffer used by translateVisibleText has
batch size 1; with batch size 1, every add that completes without error
leaves the Pending Queue empty (hence it never holds more than one phrase
at the end of an add call), and every add that commits a phrase triggers
a flush that invokes the translation function within the same call. -/
theorem C9_batch_size_one :
    (mkBuffer).batchSize = 1
    ∧ (∀ (f : List String → List String) (t : DTree) (b : TextBuffer) (seg : Seg),
        b.batchSize = 1 → (TextBuffer.add f t b seg).err = none →
        (TextBuffer.add f t b seg).buf.phrases = [])
    ∧ (∀ (f : List String → List String) (t : DTree) (b : TextBuffer) (seg lastSeg : Seg),
        b.batchSize = 1 → b.currentPhrase.getLast? = some lastSeg →
        forceBoundary t lastSeg seg = true →
        ((TextBuffer.add f t b seg).call).isSome = true) := by
  refine ⟨rfl, ?_, ?_⟩
  · intro f t b seg hbs h
    unfold TextBuffer.add at h ⊢
    cases hlast : b.currentPhrase.getLast? with
    | none =>
      rw [hlast] at h
      exact maybeFlush_phrases_batch1 f t ⟨b.batchSize, b.currentPhrase ++ [seg], b.phrases⟩ hbs h
    | some lastSeg =>
      rw [hlast] at h
      dsimp only at h ⊢
      cases hf : forceBoundary t lastSeg seg with
      | true =>
        rw [hf] at h
        have hred : (if true = true then commitPhrase b else b) = commitPhrase b := if_pos rfl
        rw [hred] at h ⊢
        exact maybeFlush_phrases_batch1 f t
          ⟨(commitPhrase b).batchSize, (commitPhrase b).currentPhrase ++ [seg],
            (commitPhrase b).phrases⟩ ((commitPhrase_batchSize b).trans hbs) h
      | false =>
        rw [hf] at h
        have hred : (if false = true then commitPhrase b else b) = b := if_neg (by simp)
        rw [hred] at h ⊢
        exact maybeFlush_phrases_batch1 f t ⟨b.batchSize, b.currentPhrase ++ [seg], b.phrases⟩ hbs h
  · intro f t b seg lastSeg hbs hlast hforce
    have hne : b.currentPhrase.isEmpty = false := by
      cases hc : b.currentPhrase with
      | nil => rw [hc] at hlast; simp at hlast
      | cons x xs => simp [hc]
    simp only [TextBuffer.add, hlast, hforce, if_true, commitPhrase, hne, Bool.false_eq_true,
      if_false]
    have hge : (b.phrases ++ [b.currentPhrase]).length ≥ b.batchSize := by
      rw [hbs]
      simp
    have hp : (b.phrases ++ [b.currentPhrase]) ≠ [] := by simp
    rw [if_pos hge, flushPhrases_of_ne f t
      ⟨b.batchSize, [] ++ [seg], b.phrases ++ [b.currentPhrase]⟩ (by simpa using hp)]
    split <;> rfl

/-- Witness for C9: with the default batch size, a second add under the
same parent commits the first phrase and flushes it immediately. -/
theorem C9_batch_size_one_witness :
    (TextBuffer.add (fun l => l) exTree ⟨1, [⟨2, "Hello "⟩], []⟩ ⟨3, "world."⟩).err = none
    ∧ (TextBuffer.add (fun l => l) exTree ⟨1, [⟨2, "Hello "⟩], []⟩ ⟨3, "world."⟩).buf.phrases
        = [] :=
  ⟨by decide,
    C9_batch_size_one.2.1 (fun l => l) exTree ⟨1, [⟨2, "Hello "⟩], []⟩ ⟨3, "world."⟩
      rfl (by decide)⟩

/-- Claim C8: for every non-empty input list whose entries all strip to
the empty string, Translator.translate returns the empty list, whose
length therefore differs from the input length, violating the same-length
batched-translate contract at this public interface; an empty input list
likewise yields the empty list. -/
theorem C8_translate_empty_guard (tr : Translator) (text : List String)
    (src tgt : Option String) (hne : text ≠ []) (hws : ∀ s ∈ text, pyStrip s = "") :
    Translator.translate tr text src tgt = []
    ∧ (Translator.translate tr text src tgt).length ≠ text.length
    ∧ Translator.translate tr [] src tgt = [] := by
  have hguard : Translator.translate tr text src tgt = [] := by
    unfold Translator.translate
    have hany : text.any (fun s => pyStrip s != "") = false := by
      rw [List.any_eq_false]
      intro s hs
      simp [hws s hs]
    rw [if_pos]
    rw [hany]
    simp
  refine ⟨hguard, ?_, by simp [Translator.translate]⟩
  rw [hguard]
  simpa using (List.length_pos.mpr hne).ne

/-- Witness for C8 on the singleton whitespace batch. -/
theorem C8_translate_empty_guard_witness :
    ((" " : String) :: [] ≠ [])
    ∧ Translator.translate ⟨fun s _ _ => s, "english", "italian"⟩ [" "] none none = []
    ∧ (Translator.translate ⟨fun s _ _ => s, "english", "italian"⟩ [" "] none none).length
        ≠ ([" "] : List String).length :=
  ⟨by decide,
    (C8_translate_empty_guard ⟨fun s _ _ => s, "english", "italian"⟩ [" "] none none
      (by decide) (by decide)).1,
    (C8_translate_empty_guard ⟨fun s _ _ => s, "english", "italian"⟩ [" "] none none
      (by decide) (by decide)).2.1⟩

theorem add_item_language (b : EpubBook) (it : EItem) :
    (add_item b it).language = b.language := rfl

theorem translate_and_add_items_language (tvf : String → String) (book tb : EpubBook) :
    (translate_and_add_items tvf book tb).1.language = tb.language := by
  unfold translate_and_add_items
  suffices h : ∀ (items : List EItem) (acc : EpubBook × List (String × EItem)),
      (items.foldl (fun acc item =>
        if item.itemType == ITEM_DOCUMENT then
          (add_item acc.1
            { uid := item.uid, fileName := item.fileName, mediaType := item.mediaType,
              content := tvf item.content, itemType := ITEM_DOCUMENT },
            acc.2 ++ [(item.uid,
              { uid := item.uid, fileName := item.fileName, mediaType := item.mediaType,
                content := tvf item.content, itemType := ITEM_DOCUMENT })])
        else (add_item acc.1 item, acc.2)) acc).1.language = acc.1.language by
    exact h book.items (tb, [])
  intro items
  induction items with
  | nil => intro acc; rfl
  | cons item rest ih =>
    intro acc
    rw [List.foldl_cons, ih]
    split <;> rfl

/-- Claim C10: move_metadata always sets the language of the new book to
the constant "it", and translate_book therefore always produces a book
whose language is "it", regardless of the source book. -/
theorem C10_language_it :
    (∀ book new_book : EpubBook, (move_metadata book new_book).language = "it")
    ∧ (∀ (tvf : String → String) (book : EpubBook),
        (translate_book tvf book).language = "it") := by
  have hmove : ∀ book new_book : EpubBook, (move_metadata book new_book).language = "it" := by
    intro book new_book
    rfl
  refine ⟨hmove, ?_⟩
  intro tvf book
  unfold translate_book
  have h1 : ∀ tb : EpubBook, (add_ncx tb).language = tb.language := by
    intro tb
    unfold add_ncx
    split <;> rfl
  have h2 : ∀ tb : EpubBook, (add_cover book tb).language = tb.language := by
    intro tb
    unfold add_cover
    cases book.items.find? (fun it => it.uid == "cover") with
    | none => rfl
    | some coverItem =>
      dsimp only
      split <;> rfl
  have h3 : ∀ (tb : EpubBook) (d : List (String × EItem)),
      (set_translated_spine book tb d).language = tb.language := by
    intro tb d
    rfl
  have h4 : ∀ (tb : EpubBook) (d : List (String × EItem)),
      (set_translated_toc book tb d).language = tb.language := by
    intro tb d
    unfold set_translated_toc
    split <;> rfl
  rw [h1, h2, h3, h4, translate_and_add_items_language, hmove]

/-- Claim C7: a string node of the document is fed to the Buffer by the
visitor loop exactly when it has a parent, that parent is not the
document root and its tag name is not one of style, script, head, meta,
the node is not a comment, and its stripped content is non-empty.  The
hypotheses state well-formedness of a parsed soup: every node holding
children is an element, and "[document]" names exactly the root
object. -/
theorem C7_visitor_filter (t : DTree) (root n : NodeId) (rootAttrs : List (String × String))
    (hroot : getKind t root = some (.elem "[document]" rootAttrs))
    (hparents : ∀ e ∈ t.children, isElemNode t e.1 = true)
    (hdocname : ∀ e ∈ t.kind, elemName e.2 = some "[document]" → e.1 = root)
    (hstr : isStringNode t n = true) :
    visitorFeeds t n = true ↔ claimFeeds t root n := by
  cases hp : parentOf t n with
  | none =>
    constructor
    · intro h
      simp [visitorFeeds, hp] at h
    · rintro ⟨⟨p, nm, a, hp', -⟩, -, -⟩
      rw [hp] at hp'
      exact Option.noConfusion hp'
  | some p =>
    have hmem : ∃ e0, t.children.find? (fun e => e.2.contains n) = some e0 ∧ e0.1 = p := by
      unfold parentOf at hp
      cases hfind : t.children.find? (fun e => e.2.contains n) with
      | none => rw [hfind] at hp; exact Option.noConfusion hp
      | some e0 => rw [hfind] at hp; exact ⟨e0, rfl, by simpa using hp⟩
    obtain ⟨e0, hfind, he0⟩ := hmem
    have he0mem : e0 ∈ t.children := List.mem_of_find?_eq_some hfind
    have helem : isElemNode t p = true := he0 ▸ hparents e0 he0mem
    obtain ⟨nm, a, hk⟩ : ∃ nm a, getKind t p = some (.elem nm a) := by
      unfold isElemNode at helem
      cases hg : getKind t p with
      | none => rw [hg] at helem; simp at helem
      | some k =>
        cases k with
        | elem nm a => exact ⟨nm, a, rfl⟩
        | txt s => rw [hg] at helem; simp at helem
        | comment s => rw [hg] at helem; simp at helem
    have hpn : parentNameOf t n = some nm := by
      unfold parentNameOf
      rw [hp]
      dsimp only
      rw [hk]
    have hdoc : nm = "[document]" ↔ p = root := by
      constructor
      · intro hnm
        have hentry : ∃ e1, t.kind.find? (fun e => e.1 == p) = some e1
            ∧ e1.2 = NodeKind.elem nm a := by
          unfold getKind at hk
          cases hg : t.kind.find? (fun e => e.1 == p) with
          | none => rw [hg] at hk; exact Option.noConfusion hk
          | some e1 => rw [hg] at hk; exact ⟨e1, rfl, by simpa using hk⟩
        obtain ⟨e1, hg, he1⟩ := hentry
        have he1p : e1.1 = p := by simpa using List.find?_some hg
        have hmem1 : e1 ∈ t.kind := List.mem_of_find?_eq_some hg
        have hisroot : e1.1 = root := hdocname e1 hmem1 (by rw [he1]; simp [elemName, hnm])
        rw [he1p] at hisroot
        exact hisroot
      · intro hpr
        rw [hpr, hroot] at hk
        have := Option.some.inj hk
        cases this
        rfl
    constructor
    · intro h
      simp only [visitorFeeds, Bool.and_eq_true] at h
      obtain ⟨⟨⟨⟨-, hinv⟩, hcom⟩, -⟩, hstrip⟩ := h
      rw [hpn] at hinv
      simp only [optIn, invisibleParents, Bool.not_eq_true'] at hinv
      have hnotin : ¬ (nm = "style" ∨ nm = "script" ∨ nm = "head" ∨ nm = "meta"
          ∨ nm = "[document]") := by
        simp at hinv
        intro hor
        rcases hor with h1 | h1 | h1 | h1 | h1 <;> simp [h1] at hinv
      refine ⟨⟨p, nm, a, hp, ?_, hk, ?_⟩, ?_, ?_⟩
      · intro hpr
        exact hnotin (Or.inr (Or.inr (Or.inr (Or.inr (hdoc.mpr hpr)))))
      · intro hin
        simp at hin
        rcases hin with h1 | h1 | h1 | h1
        · exact hnotin (Or.inl h1)
        · exact hnotin (Or.inr (Or.inl h1))
        · exact hnotin (Or.inr (Or.inr (Or.inl h1)))
        · exact hnotin (Or.inr (Or.inr (Or.inr (Or.inl h1))))
      · simpa using hcom
      · simpa using hstrip
    · rintro ⟨⟨p', nm', a', hp', hner, hk', hnm4⟩, hcom, hstrip⟩
      have hpp : p' = p := by
        rw [hp] at hp'
        exact (Option.some.inj hp').symm
      rw [hpp, hk] at hk'
      have hnm : nm' = nm := by
        have := Option.some.inj hk'
        cases this
        rfl
      rw [hnm] at hnm4
      have hnotdoc : nm ≠ "[document]" := by
        intro hd
        exact hner (by rw [hpp] at *; exact hdoc.mp hd)
      simp only [visitorFeeds, Bool.and_eq_true]
      refine ⟨⟨⟨⟨by simp [hp], ?_⟩, by simpa using hcom⟩, hstr⟩, by simpa using hstrip⟩
      rw [hpn]
      have g1 : nm ≠ "style" := fun hx => hnm4 (by simp [hx])
      have g2 : nm ≠ "script" := fun hx => hnm4 (by simp [hx])
      have g3 : nm ≠ "head" := fun hx => hnm4 (by simp [hx])
      have g4 : nm ≠ "meta" := fun hx => hnm4 (by simp [hx])
      simp [optIn, invisibleParents, g1, g2, g3, g4, hnotdoc]

/-- Witness for C7: the text leaf "Hello " under the div of the example
document passes the filter. -/
theorem C7_visitor_filter_witness : claimFeeds exTree 0 2 :=
  (C7_visitor_filter exTree 0 2 [] (by decide) (by decide) (by decide) (by decide)).mp (by decide)

/-! # Lemmas for the Reinsertion Engine (claim C4) -/

theorem findKey_none {α : Type} (K : List (NodeId × α)) (M N : NodeId)
    (h : ∀ e ∈ K, e.1 < N) (hM : N ≤ M) :
    K.find? (fun e => e.1 == M) = none := by
  rw [List.find?_eq_none]
  intro e he
  have hlt := h e he
  intro hx
  have hx2 : e.1 = M := by simpa using hx
  exact absurd hx2 (Nat.ne_of_lt (Nat.lt_of_lt_of_le hlt hM))

theorem findKey_append_of_lt {α : Type} (K L : List (NodeId × α)) (M N : NodeId)
    (h : ∀ e ∈ K, e.1 < N) (hM : N ≤ M) :
    (K ++ L).find? (fun e => e.1 == M) = L.find? (fun e => e.1 == M) := by
  rw [List.find?_append, findKey_none K M N h hM]
  rfl

theorem findKey_map {α β : Type} (l : List (NodeId × α)) (g : NodeId → α → β) (M : NodeId) :
    (l.map (fun e => (e.1, g e.1 e.2))).find? (fun e => e.1 == M)
      = (l.find? (fun e => e.1 == M)).map (fun e => (e.1, g e.1 e.2)) := by
  rw [List.find?_map]
  rfl

theorem find?_key_of_mem_nodup {α : Type} (l : List (NodeId × α)) (e0 : NodeId × α)
    (hmem : e0 ∈ l) (hnd : (l.map Prod.fst).Nodup) :
    l.find? (fun e => e.1 == e0.1) = some e0 := by
  induction l with
  | nil => cases hmem
  | cons x rest ih =>
    rcases List.mem_cons.mp hmem with he | he
    · rw [he]
      simp [List.find?]
    · have hx : ¬ (x.1 == e0.1) = true := by
        intro hxx
        have hmm : e0.1 ∈ rest.map Prod.fst := List.mem_map_of_mem Prod.fst he
        have hnd1 := (List.nodup_cons.mp hnd).1
        rw [beq_iff_eq] at hxx
        rw [hxx] at hnd1
        exact hnd1 hmm
      rw [show List.find? (fun e => e.1 == e0.1) (x :: rest)
          = List.find? (fun e => e.1 == e0.1) rest from List.find?_cons_of_neg rest hx]
      exact ih he (List.nodup_cons.mp hnd).2

theorem mapSelf {α : Type} (A : List α) (g : α → α) (h : ∀ e ∈ A, g e = e) : A.map g = A := by
  induction A with
  | nil => rfl
  | cons x rest ih =>
    rw [List.map_cons, h x (by simp), ih (fun e he => h e (by simp [he]))]

theorem insertBeforeId_not_mem (cs : List NodeId) (target newId : NodeId) (h : target ∉ cs) :
    insertBeforeId cs target newId = cs := by
  induction cs with
  | nil => rfl
  | cons c rest ih =>
    have hc : ¬ (c == target) = true := by
      intro hcc
      rw [beq_iff_eq] at hcc
      exact h (by simp [hcc])
    unfold insertBeforeId
    rw [if_neg hc, ih (fun hm => h (by simp [hm]))]

theorem extract_kind (t : DTree) (n : NodeId) : (extract t n).kind = t.kind := rfl

theorem foldl_extract_kind (l : List Seg) :
    ∀ t : DTree, (l.foldl (fun acc s => extract acc s.node) t).kind = t.kind := by
  induction l with
  | nil => intro t; rfl
  | cons s rest ih => intro t; rw [List.foldl_cons, ih, extract_kind]

theorem map_filter_nilContains (L : List (NodeId × List NodeId)) :
    L.map (fun e => (e.1, e.2.filter (fun c => !((([] : List Seg).map Seg.node).contains c))))
      = L := by
  apply mapSelf
  intro e _
  have : e.2.filter (fun c => !((([] : List Seg).map Seg.node).contains c)) = e.2 :=
    List.filter_eq_self.mpr (fun a _ => rfl)
  rw [this]

theorem foldl_extract_children (l : List Seg) :
    ∀ t : DTree, (l.foldl (fun acc s => extract acc s.node) t).children
      = t.children.map (fun e => (e.1, e.2.filter (fun c => !((l.map Seg.node).contains c)))) := by
  induction l with
  | nil => intro t; rw [List.foldl_nil, map_filter_nilContains]
  | cons s rest ih =>
    intro t
    rw [List.foldl_cons, ih]
    show (extract t s.node).children.map _ = _
    unfold extract
    rw [List.map_map]
    have hfun : (fun (e : NodeId × List NodeId) =>
          (e.1, e.2.filter (fun c => !((rest.map Seg.node).contains c))))
        ∘ (fun (e : NodeId × List NodeId) => (e.1, e.2.filter (fun c => c != s.node)))
        = fun (e : NodeId × List NodeId) =>
          (e.1, e.2.filter (fun c => !((((s :: rest)).map Seg.node).contains c))) := by
      funext e
      show (e.1, (e.2.filter (fun c => c != s.node)).filter
          (fun c => !((rest.map Seg.node).contains c))) = _
      rw [List.filter_filter]
      congr 1
      apply List.filter_congr
      intro c _
      show ((!((rest.map Seg.node).contains c)) && (c != s.node))
          = (!(((s :: rest).map Seg.node).contains c))
      rw [List.map_cons, List.contains_cons, Bool.not_or, Bool.and_comm]
      rfl
    rw [hfun]

theorem findKey_map2 {β : Type} (l : List (NodeId × List NodeId)) (g : List NodeId → β)
    (M : NodeId) :
    (l.map (fun e => (e.1, g e.2))).find? (fun e => e.1 == M)
      = (l.find? (fun e => e.1 == M)).map (fun e => (e.1, g e.2)) := by
  rw [List.find?_map]
  rfl

theorem contains_false_of_forall_lt (l : List Seg) (N m : NodeId)
    (h : ∀ s ∈ l, s.node < N) (hm : N ≤ m) :
    ((l.map Seg.node).contains m) = false := by
  induction l with
  | nil => rfl
  | cons s rest ih =>
    rw [List.map_cons, List.contains_cons]
    have h1 : (m == s.node) = false := by
      apply beq_eq_false_iff_ne.mpr
      have := h s (by simp)
      exact Nat.ne_of_gt (Nat.lt_of_lt_of_le this hm)
    rw [h1, ih (fun x hx => h x (by simp [hx]))]
    rfl

theorem reinsert_pipeline (t : DTree) (firstSeg : Seg) (rest : List Seg)
    (translated : String) (wnm : String) (wa : List (String × String)) (p : NodeId)
    (hfreshk : ∀ e ∈ t.kind, e.1 < t.fresh)
    (hfreshc : ∀ e ∈ t.children, e.1 < t.fresh)
    (hkeys : (t.children.map Prod.fst).Nodup)
    (hsegs : ∀ s ∈ (firstSeg :: rest), s.node < t.fresh)
    (hpar : parentOf t firstSeg.node = some p)
    (r : DTree)
    (hr : r = (firstSeg :: rest).foldl (fun acc s => extract acc s.node)
      (insertBefore
        (appendChild
          ⟨(t.kind ++ [(t.fresh, NodeKind.elem wnm wa)])
              ++ [(t.fresh + 1, NodeKind.txt translated)],
            t.children ++ [(t.fresh, [])], t.fresh + 2⟩
          t.fresh (t.fresh + 1))
        firstSeg.node t.fresh)) :
    getKind r t.fresh = some (NodeKind.elem wnm wa)
    ∧ childrenOf r t.fresh = [t.fresh + 1]
    ∧ getKind r (t.fresh + 1) = some (NodeKind.txt translated)
    ∧ childrenOf r p = (insertBeforeId (childrenOf t p) firstSeg.node t.fresh).filter
        (fun c => !(((firstSeg :: rest).map Seg.node).contains c))
    ∧ ∀ e ∈ r.children, ∀ s ∈ (firstSeg :: rest), ¬ s.node ∈ e.2 := by
  have hfirstlt : firstSeg.node < t.fresh := hsegs firstSeg (by simp)
  have hkind_r : r.kind
      = t.kind ++ [(t.fresh, NodeKind.elem wnm wa), (t.fresh + 1, NodeKind.txt translated)] := by
    rw [hr, foldl_extract_kind]
    show (t.kind ++ [(t.fresh, NodeKind.elem wnm wa)])
        ++ [(t.fresh + 1, NodeKind.txt translated)] = _
    rw [List.append_assoc]
    rfl
  have hch3 : (appendChild
      (⟨(t.kind ++ [(t.fresh, NodeKind.elem wnm wa)])
          ++ [(t.fresh + 1, NodeKind.txt translated)],
        t.children ++ [(t.fresh, [])], t.fresh + 2⟩ : DTree)
      t.fresh (t.fresh + 1)).children = t.children ++ [(t.fresh, [t.fresh + 1])] := by
    unfold appendChild
    show (t.children ++ [(t.fresh, ([] : List NodeId))]).map _ = _
    rw [List.map_append]
    congr 1
    · apply mapSelf
      intro e he
      have helt := hfreshc e he
      have hne : ¬ ((e.1 == t.fresh) = true) := by
        intro hx
        exact absurd (by simpa using hx) (Nat.ne_of_lt helt)
      rw [if_neg hne]
    · simp
  have hins1 : insertBeforeId [t.fresh + 1] firstSeg.node t.fresh = [t.fresh + 1] := by
    apply insertBeforeId_not_mem
    simp only [List.mem_singleton]
    exact fun hx => absurd hx (Nat.ne_of_lt (Nat.lt_trans hfirstlt (Nat.lt_succ_self _)))
  have hch4 : (insertBefore
      (appendChild
        (⟨(t.kind ++ [(t.fresh, NodeKind.elem wnm wa)])
            ++ [(t.fresh + 1, NodeKind.txt translated)],
          t.children ++ [(t.fresh, [])], t.fresh + 2⟩ : DTree)
        t.fresh (t.fresh + 1))
      firstSeg.node t.fresh).children
      = t.children.map (fun e => (e.1, insertBeforeId e.2 firstSeg.node t.fresh))
        ++ [(t.fresh, [t.fresh + 1])] := by
    unfold insertBefore
    rw [hch3, List.map_append]
    congr 1
    simp [hins1]
  have hkeep : [t.fresh + 1].filter
      (fun c => !(((firstSeg :: rest).map Seg.node).contains c)) = [t.fresh + 1] := by
    apply List.filter_eq_self.mpr
    intro a ha
    have ha2 : a = t.fresh + 1 := by simpa using ha
    rw [ha2, contains_false_of_forall_lt (firstSeg :: rest) t.fresh (t.fresh + 1) hsegs
      (Nat.le_succ _)]
    rfl
  have hch_r : r.children
      = (t.children.map (fun e => (e.1, insertBeforeId e.2 firstSeg.node t.fresh))).map
          (fun e => (e.1, e.2.filter
            (fun c => !(((firstSeg :: rest).map Seg.node).contains c))))
        ++ [(t.fresh, [t.fresh + 1])] := by
    rw [hr, foldl_extract_children, hch4, List.map_append]
    congr 1
    show [(t.fresh, [t.fresh + 1].filter
        (fun c => !(((firstSeg :: rest).map Seg.node).contains c)))]
      = [(t.fresh, [t.fresh + 1])]
    rw [hkeep]
  have hcomp : (fun (e : NodeId × List NodeId) =>
        (e.1, e.2.filter (fun c => !(((firstSeg :: rest).map Seg.node).contains c))))
      ∘ (fun (e : NodeId × List NodeId) => (e.1, insertBeforeId e.2 firstSeg.node t.fresh))
      = fun (e : NodeId × List NodeId) =>
        (e.1, (insertBeforeId e.2 firstSeg.node t.fresh).filter
          (fun c => !(((firstSeg :: rest).map Seg.node).contains c))) := by
    funext e
    rfl
  have hch_r2 : r.children
      = t.children.map (fun e =>
          (e.1, (insertBeforeId e.2 firstSeg.node t.fresh).filter
            (fun c => !(((firstSeg :: rest).map Seg.node).contains c))))
        ++ [(t.fresh, [t.fresh + 1])] := by
    rw [hch_r, List.map_map, hcomp]
  refine ⟨?_, ?_, ?_, ?_, ?_⟩
  · unfold getKind
    rw [hkind_r, findKey_append_of_lt t.kind _ t.fresh t.fresh hfreshk (Nat.le_refl _)]
    simp [List.find?]
  · unfold childrenOf
    rw [hch_r2]
    have hmk : ∀ e ∈ t.children.map (fun e =>
        (e.1, (insertBeforeId e.2 firstSeg.node t.fresh).filter
          (fun c => !(((firstSeg :: rest).map Seg.node).contains c)))), e.1 < t.fresh := by
      intro e he
      obtain ⟨x, hx, rfl⟩ := List.mem_map.mp he
      exact hfreshc x hx
    rw [findKey_append_of_lt _ _ t.fresh t.fresh hmk (Nat.le_refl _)]
    simp [List.find?]
  · unfold getKind
    rw [hkind_r, findKey_append_of_lt t.kind _ (t.fresh + 1) t.fresh hfreshk (Nat.le_succ _)]
    have h1 : ((t.fresh : NodeId) == t.fresh + 1) = false :=
      beq_eq_false_iff_ne.mpr (Nat.ne_of_lt (Nat.lt_succ_self _))
    simp [List.find?, h1]
  · have hentry : ∃ e0, t.children.find? (fun e => e.2.contains firstSeg.node) = some e0
        ∧ e0.1 = p := by
      unfold parentOf at hpar
      cases hfind : t.children.find? (fun e => e.2.contains firstSeg.node) with
      | none => rw [hfind] at hpar; exact Option.noConfusion hpar
      | some e0 => rw [hfind] at hpar; exact ⟨e0, rfl, by simpa using hpar⟩
    obtain ⟨e0, hfind, he0⟩ := hentry
    have he0mem : e0 ∈ t.children := List.mem_of_find?_eq_some hfind
    have hfind_p : t.children.find? (fun e => e.1 == p) = some e0 := by
      rw [← he0]
      exact find?_key_of_mem_nodup t.children e0 he0mem hkeys
    have hctp : childrenOf t p = e0.2 := by
      unfold childrenOf
      rw [hfind_p]
    rw [hctp]
    unfold childrenOf
    rw [hch_r2, List.find?_append]
    rw [findKey_map2 t.children (fun v => (insertBeforeId v firstSeg.node t.fresh).filter
      (fun c => !(((firstSeg :: rest).map Seg.node).contains c))) p]
    rw [hfind_p]
    rfl
  · intro e he s hs hmem
    rw [hch_r2] at he
    rcases List.mem_append.mp he with h1 | h1
    · obtain ⟨x, hx, rfl⟩ := List.mem_map.mp h1
      have hpred := (List.mem_filter.mp hmem).2
      have hmm : s.node ∈ (firstSeg :: rest).map Seg.node := List.mem_map_of_mem Seg.node hs
      have hcontains : (((firstSeg :: rest).map Seg.node).contains s.node) = true :=
        List.elem_eq_true_of_mem hmm
      rw [hcontains] at hpred
      simp at hpred
    · have h2 : e = (t.fresh, [t.fresh + 1]) := by simpa using h1
      rw [h2] at hmem
      have h3 : s.node = t.fresh + 1 := by simpa using hmem
      have hlt := hsegs s hs
      exact absurd h3 (Nat.ne_of_lt (Nat.lt_trans hlt (Nat.lt_succ_self _)))

/-- Claim C4: for a flushed (phrase, translated) pair whose first segment
node is a bare text leaf with a (well-formed, non-invalid-or-invalid)
parent element, the Reinsertion Engine allocates a new element whose only
child is a text node holding the translated string, inserts it
immediately before the first segment in the parent children list, and
detaches every segment node of the phrase from the tree; the new element
is a clone of the parent (same tag name, same attributes) when the parent
tag name is not in the invalid set, and otherwise a fresh "p" element
with no attributes, exactly the claimWrapKind rule.  The freshness,
key-uniqueness and non-empty-tag-name hypotheses express well-formedness
of a parsed document store. -/
theorem C4_reinsertion_bare_text (t : DTree) (firstSeg : Seg) (rest : List Seg)
    (translated : String) (s0 : String) (p : NodeId) (pname : String)
    (pattrs : List (String × String))
    (hfreshk : ∀ e ∈ t.kind, e.1 < t.fresh)
    (hfreshc : ∀ e ∈ t.children, e.1 < t.fresh)
    (hkeys : (t.children.map Prod.fst).Nodup)
    (hsegs : ∀ s ∈ (firstSeg :: rest), s.node < t.fresh)
    (hkind : getKind t firstSeg.node = some (NodeKind.txt s0))
    (hpar : parentOf t firstSeg.node = some p)
    (hpelem : getKind t p = some (NodeKind.elem pname pattrs))
    (hpname : pname ≠ "") :
    getKind (reinsertPhrase t (firstSeg :: rest) translated) t.fresh
        = some (claimWrapKind t firstSeg.node)
    ∧ childrenOf (reinsertPhrase t (firstSeg :: rest) translated) t.fresh = [t.fresh + 1]
    ∧ getKind (reinsertPhrase t (firstSeg :: rest) translated) (t.fresh + 1)
        = some (NodeKind.txt translated)
    ∧ childrenOf (reinsertPhrase t (firstSeg :: rest) translated) p
        = (insertBeforeId (childrenOf t p) firstSeg.node t.fresh).filter
            (fun c => !(((firstSeg :: rest).map Seg.node).contains c))
    ∧ ∀ e ∈ (reinsertPhrase t (firstSeg :: rest) translated).children,
        ∀ s ∈ (firstSeg :: rest), ¬ s.node ∈ e.2 := by
  have hattr : parentAttrsOf t firstSeg.node = pattrs := by
    unfold parentAttrsOf
    rw [hpar]
    dsimp only
    rw [hpelem]
  have hpe : (pname == "") = false := beq_eq_false_iff_ne.mpr hpname
  cases hinv : invalidTags.contains pname with
  | true =>
    have hred : reinsertPhrase t (firstSeg :: rest) translated
        = (firstSeg :: rest).foldl (fun acc s => extract acc s.node)
          (insertBefore
            (appendChild
              ⟨(t.kind ++ [(t.fresh, NodeKind.elem "p" [])])
                  ++ [(t.fresh + 1, NodeKind.txt translated)],
                t.children ++ [(t.fresh, [])], t.fresh + 2⟩
              t.fresh (t.fresh + 1))
            firstSeg.node t.fresh) := by
      unfold reinsertPhrase
      dsimp only
      rw [hkind]
      dsimp only
      rw [hpar]
      dsimp only
      rw [hpelem]
      dsimp only
      rw [hpe, hinv]
      rfl
    have hcw : claimWrapKind t firstSeg.node = NodeKind.elem "p" [] := by
      unfold claimWrapKind
      rw [hpar]
      dsimp only
      rw [hpelem]
      dsimp only
      rw [hinv]
      rfl
    have pipe := reinsert_pipeline t firstSeg rest translated "p" [] p hfreshk hfreshc hkeys
      hsegs hpar _ hred
    rw [hcw]
    exact pipe
  | false =>
    have hred : reinsertPhrase t (firstSeg :: rest) translated
        = (firstSeg :: rest).foldl (fun acc s => extract acc s.node)
          (insertBefore
            (appendChild
              ⟨(t.kind ++ [(t.fresh, NodeKind.elem pname pattrs)])
                  ++ [(t.fresh + 1, NodeKind.txt translated)],
                t.children ++ [(t.fresh, [])], t.fresh + 2⟩
              t.fresh (t.fresh + 1))
            firstSeg.node t.fresh) := by
      unfold reinsertPhrase
      dsimp only
      rw [hkind]
      dsimp only
      rw [hpar]
      dsimp only
      rw [hpelem]
      dsimp only
      rw [hpe, hinv, hattr]
      rfl
    have hcw : claimWrapKind t firstSeg.node = NodeKind.elem pname pattrs := by
      unfold claimWrapKind
      rw [hpar]
      dsimp only
      rw [hpelem]
      dsimp only
      rw [hinv]
      rfl
    have pipe := reinsert_pipeline t firstSeg rest translated pname pattrs p hfreshk hfreshc
      hkeys hsegs hpar _ hred
    rw [hcw]
    exact pipe

/-- Witness for C4: reinserting the phrase holding the "Hello " leaf of
the example document clones the div (node 4), gives it a single text
child (node 5) with the translated string, places it before the old leaf
in the div children list, and detaches the leaf. -/
theorem C4_reinsertion_bare_text_witness :
    getKind (reinsertPhrase exTree [⟨2, "Hello "⟩] "Ciao") 4
        = some (claimWrapKind exTree 2)
    ∧ childrenOf (reinsertPhrase exTree [⟨2, "Hello "⟩] "Ciao") 4 = [5]
    ∧ getKind (reinsertPhrase exTree [⟨2, "Hello "⟩] "Ciao") 5
        = some (NodeKind.txt "Ciao")
    ∧ childrenOf (reinsertPhrase exTree [⟨2, "Hello "⟩] "Ciao") 1
        = (insertBeforeId (childrenOf exTree 1) 2 4).filter
            (fun c => !((([⟨2, "Hello "⟩] : List Seg).map Seg.node).contains c)) :=
  have h := C4_reinsertion_bare_text exTree ⟨2, "Hello "⟩ [] "Ciao" "Hello " 1 "div"
    [("class", "x")] (by decide) (by decide) (by decide) (by decide) (by decide) (by decide)
    (by decide) (by decide)
  ⟨h.1, h.2.1, h.2.2.1, h.2.2.2.1⟩
